import Mathlib

/-!
Shallow embedding of the `blockchain-from-scratch` ledger engine
(`src/main.py`) and proofs about its specification.

Modelling conventions:
* Python `str` is Lean `String`; Python string slicing `s[:n]` is `pySlice`.
* `hashlib.sha256(...).hexdigest()` is an external library, so the digest
  function is a parameter `sha : String → String` (taking the pre-`encode()`
  text); every theorem is universally quantified over it.  Likewise pydantic's
  `Block.json()` canonical serialisation is a parameter `enc : Block → String`.
* `time.time()` and the node's uuid are impure inputs; they are passed in as
  explicit arguments (`ts`, `nodeId`).  A timestamp is carried opaquely as a
  `Nat` since the code never computes with it.
* Python code that can raise (indexing `chain[0]` / `chain[-1]` on an empty
  list, an un-caught `requests` network error) is embedded with
  `Option`/`Except`, `none`/`.error` marking the raise.
* Python `int` is `Int`; the decimal text of an int is `toString`.
-/

namespace BlockchainFS

/-- `Transaction` pydantic model from `src/main.py`. -/
structure Transaction where
  sender : String
  recipient : String
  amount : Int
deriving DecidableEq, Repr

/-- `Block` pydantic model from `src/main.py`.  `timestamp` is opaque data
(the code only ever stores it), carried as a `Nat`. -/
structure Block where
  index : Int
  timestamp : Nat
  transactions : List Transaction
  proof : Int
  previous_hash : String
deriving DecidableEq, Repr

/-- The mutable state of a `Blockchain` object: `self.chain`,
`self.current_transactions`, `self.nodes`.  The node set is carried as the
list of registered locations in iteration order. -/
structure Blockchain where
  chain : List Block
  current_transactions : List Transaction
  nodes : List String
deriving DecidableEq, Repr

/-- Python string slicing `s[:n]` (by code points, which coincides with
Python's semantics on the ASCII hex digests involved here). -/
def pySlice (s : String) (n : Nat) : String := String.mk (s.data.take n)

section Engine

variable (sha : String → String) (enc : Block → String)

/-- `Blockchain.hash`: `sha256(block.json().encode()).hexdigest()`. -/
def hash (b : Block) : String := sha (enc b)

/-- `Blockchain.valid_proof`: hash the concatenation `f"{last_proof}{proof}"`
and test `guess_hash[:4] == "0000"`. -/
def valid_proof (last_proof proof : Int) : Bool :=
  pySlice (sha (toString last_proof ++ toString proof)) 4 == "0000"

/-- The `while index < len(chain)` loop of `Blockchain.valid_chain`, with
`prev` the block the loop last inspected. -/
def validChainLoop : Block → List Block → Bool
  | _, [] => true
  | prev, b :: rest =>
    if b.previous_hash ≠ hash sha enc prev then false
    else if ¬ valid_proof sha prev.proof b.proof then false
    else validChainLoop b rest

/-- `Blockchain.valid_chain`.  The code reads `chain[0]` before any length
check, so the empty candidate raises `IndexError`, embedded as `none`. -/
def valid_chain (chain : List Block) : Option Bool :=
  match chain with
  | [] => none
  | first :: rest => some (validChainLoop sha enc first rest)

/-- The per-pair check of `valid_chain`: hash linkage plus puzzle validity. -/
def LinkOk (prev b : Block) : Prop :=
  b.previous_hash = hash sha enc prev ∧ valid_proof sha prev.proof b.proof = true

instance (prev b : Block) : Decidable (LinkOk sha enc prev b) := by
  unfold LinkOk; infer_instance

/-- The `while not valid_proof(last_proof, proof): proof += 1` search loop of
`Blockchain.proof_of_work`, entered with candidate `p`.  The Python loop
terminates exactly when some valid proof exists; that existence is the
hypothesis `hex`, and the loop only ever runs with `p` at most the least
valid proof, which bounds the recursion. -/
def powAux (last_proof : Int)
    (hex : ∃ p : Nat, valid_proof sha last_proof p = true) (p : Nat)
    (hle : p ≤ Nat.find hex) : Nat :=
  if hv : valid_proof sha last_proof p = true then p
  else
    powAux last_proof hex (p + 1) (by
      rcases Nat.lt_or_ge p (Nat.find hex) with h | h
      · exact h
      · have hpe : p = Nat.find hex := Nat.le_antisymm hle h
        rw [hpe] at hv
        exact absurd (Nat.find_spec hex) hv)
termination_by Nat.find hex - p
decreasing_by
  have hlt : p < Nat.find hex := by
    rcases Nat.lt_or_ge p (Nat.find hex) with h | h
    · exact h
    · have hpe : p = Nat.find hex := Nat.le_antisymm hle h
      rw [hpe] at hv
      exact absurd (Nat.find_spec hex) hv
  omega

/-- `Blockchain.proof_of_work`: the search loop started at `proof = 0`. -/
def proof_of_work (last_proof : Int)
    (hex : ∃ p : Nat, valid_proof sha last_proof p = true) : Nat :=
  powAux sha last_proof hex 0 (Nat.zero_le _)

/-- `Blockchain.last_block` (`self.chain[-1]`); `none` models the
`IndexError` on an empty chain. -/
def last_block (bc : Blockchain) : Option Block := bc.chain.getLast?

/-- `Blockchain.new_block`.  The code's `previous_hash or self.hash(self.chain[-1])`
treats both `None` and the empty string as falsy; indexing `chain[-1]` on an
empty chain raises (`none`).  On success, the block is built from the current
state, the pending pool is reset, and the block is appended. -/
def new_block (bc : Blockchain) (ts : Nat) (proof : Int)
    (previous_hash : Option String) : Option (Blockchain × Block) :=
  let ph? : Option String :=
    match previous_hash with
    | some s => if s = "" then (last_block bc).map (hash sha enc) else some s
    | none => (last_block bc).map (hash sha enc)
  match ph? with
  | none => none
  | some ph =>
    let block : Block :=
      { index := (bc.chain.length : Int) + 1
        timestamp := ts
        transactions := bc.current_transactions
        proof := proof
        previous_hash := ph }
    some ({ bc with chain := bc.chain ++ [block], current_transactions := [] }, block)

/-- `Blockchain.__init__`: empty chain, pool and node set, then
`new_block(previous_hash=1, proof=100)` (pydantic coerces the int `1` to the
string `"1"`).  The genesis call always succeeds since `"1"` is truthy, so
the `.getD` default state is unreachable. -/
def init (ts : Nat) : Blockchain :=
  let bc0 : Blockchain := { chain := [], current_transactions := [], nodes := [] }
  ((new_block sha enc bc0 ts 100 (some "1")).map Prod.fst).getD bc0

/-- `Blockchain.new_transaction`: append to the pending pool, then return
`self.last_block.index + 1`.  The index read happens after the append, and
raises on an empty chain (`none` in the second component). -/
def new_transaction (bc : Blockchain) (t : Transaction) : Blockchain × Option Int :=
  let bc' := { bc with current_transactions := bc.current_transactions ++ [t] }
  (bc', (last_block bc').map (fun lb => lb.index + 1))

/-- The `/mine` handler.  `nodeId` is the process's uuid, `ts` the clock
reading at block construction; `hex` supplies termination of the
proof-of-work search; `none` models the `IndexError` if the chain is empty
when `blockchain.last_block` is read. -/
def mine (nodeId : String) (ts : Nat) (bc : Blockchain)
    (hex : ∀ lp : Int, ∃ p : Nat, valid_proof sha lp p = true) :
    Option (Blockchain × Block) :=
  match last_block bc with
  | none => none
  | some lb =>
    let proof := proof_of_work sha lb.proof (hex lb.proof)
    let bc₁ := (new_transaction bc ⟨"0", nodeId, 1⟩).1
    let previous_hash := hash sha enc lb
    new_block sha enc bc₁ ts (proof : Int) (some previous_hash)

/-- One boundary operation used to grow a ledger: the `/mine` handler or the
`/transactions` (submit) handler. -/
inductive Op where
  | mine (ts : Nat)
  | submit (t : Transaction)

/-- Apply one boundary operation to the ledger state (the new state the
handler leaves behind; a raising `mine` on an empty chain leaves the state
unchanged, and never occurs on reachable states). -/
def step (nodeId : String)
    (hex : ∀ lp : Int, ∃ p : Nat, valid_proof sha lp p = true)
    (bc : Blockchain) : Op → Blockchain
  | .mine ts =>
    match mine sha enc nodeId ts bc hex with
    | some (bc', _) => bc'
    | none => bc
  | .submit t => (new_transaction bc t).1

/-- The ledger state after constructing the `Blockchain` (genesis timestamp
`ts0`) and applying a finite sequence of boundary operations. -/
def run (nodeId : String)
    (hex : ∀ lp : Int, ∃ p : Nat, valid_proof sha lp p = true)
    (ts0 : Nat) (ops : List Op) : Blockchain :=
  ops.foldl (step sha enc nodeId hex) (init sha enc ts0)

/-- What the `resolve_conflicts` peer loop observes for one peer when the
`requests.get` call returns: the HTTP status code and, from the parsed JSON
body, the peer-reported `chain` and `length`. -/
structure FetchResponse where
  status_code : Nat
  chain : List Block
  length : Int
deriving DecidableEq, Repr

/-- Exceptions `resolve_conflicts` can let escape: an un-caught `requests`
network error, or the `IndexError` from `valid_chain` on an empty candidate. -/
inductive PyErr where
  | network
  | indexError
deriving DecidableEq, Repr

/-- The `for node in neighbours` loop of `Blockchain.resolve_conflicts`,
given the outcome of the `requests.get` call for each registered node in
iteration order (`none` = the call raised a network error).  `and` is
short-circuiting: `valid_chain` runs only when the reported length beats the
running maximum. -/
def resolveLoop (fetches : List (Option FetchResponse)) (max_length : Int)
    (new_chain : Option (List Block)) : Except PyErr (Int × Option (List Block)) :=
  match fetches with
  | [] => .ok (max_length, new_chain)
  | none :: _ => .error .network
  | some r :: rest =>
    if r.status_code = 200 then
      if r.length > max_length then
        match valid_chain sha enc r.chain with
        | none => .error .indexError
        | some true => resolveLoop rest r.length (some r.chain)
        | some false => resolveLoop rest max_length new_chain
      else resolveLoop rest max_length new_chain
    else resolveLoop rest max_length new_chain

/-- `Blockchain.resolve_conflicts`: run the peer loop starting from
`max_length = len(self.chain)` and `new_chain = None`, then adopt the final
candidate iff it is truthy (a non-`None`, non-empty list). -/
def resolve_conflicts (bc : Blockchain) (fetches : List (Option FetchResponse)) :
    Except PyErr (Blockchain × Bool) :=
  match resolveLoop sha enc fetches (bc.chain.length : Int) none with
  | .error e => .error e
  | .ok (_, new_chain) =>
    match new_chain with
    | some c => if c.isEmpty then .ok (bc, false) else .ok ({ bc with chain := c }, true)
    | none => .ok (bc, false)

/-- The block `mine` forges from state `bc` whose tip is `lb` (helper for
stating `mine`'s behaviour; not itself part of the source). -/
def minedBlock (nodeId : String) (ts : Nat) (bc : Blockchain) (lb : Block)
    (hex : ∀ lp : Int, ∃ p : Nat, valid_proof sha lp p = true) : Block :=
  { index := (bc.chain.length : Int) + 1
    timestamp := ts
    transactions := bc.current_transactions ++ [{ sender := "0", recipient := nodeId, amount := 1 }]
    proof := (proof_of_work sha lb.proof (hex lb.proof) : Int)
    previous_hash := hash sha enc lb }

/-- Ledger invariant: the chain is nonempty and every adjacent pair of blocks
is correctly linked. -/
def ChainInv (bc : Blockchain) : Prop :=
  bc.chain ≠ [] ∧ List.Chain' (LinkOk sha enc) bc.chain

end Engine

/-- A concrete stand-in digest function under which every puzzle guess is
winning, used to instantiate universally quantified theorems on concrete
inputs. -/
def shaZ : String → String := fun _ => "0000"

/-- A concrete stand-in block serialisation. -/
def encZ : Block → String := fun _ => ""

/-- A concrete genesis-shaped block for exercising the resolver. -/
def gBlock : Block :=
  { index := 1, timestamp := 0, transactions := [], proof := 100, previous_hash := "1" }

/-- A concrete second block for exercising the resolver. -/
def tipBlock : Block :=
  { index := 2, timestamp := 0, transactions := [], proof := 0, previous_hash := "h" }

/-- A concrete local state with a two-block chain and one registered peer. -/
def twoBlockState : Blockchain :=
  { chain := [gBlock, tipBlock], current_transactions := [], nodes := ["peer"] }

end BlockchainFS

namespace BlockchainFS

section Theorems

variable (sha : String → String) (enc : Block → String)

theorem validChainLoop_iff (first : Block) (rest : List Block) :
    validChainLoop sha enc first rest = true ↔
      List.Chain' (LinkOk sha enc) (first :: rest) := by
  induction rest generalizing first with
  | nil => simp [validChainLoop]
  | cons b rest ih =>
    rw [List.chain'_cons]
    unfold validChainLoop
    by_cases h1 : b.previous_hash = hash sha enc first
    · by_cases h2 : valid_proof sha first.proof b.proof = true
      · simp [h1, h2, ih b, LinkOk]
      · simp [h1, h2, LinkOk]
    · simp [h1, LinkOk]

theorem valid_chain_cons (first : Block) (rest : List Block) :
    valid_chain sha enc (first :: rest) = some true ↔
      List.Chain' (LinkOk sha enc) (first :: rest) := by
  simpa [valid_chain] using validChainLoop_iff sha enc first rest

theorem valid_chain_ne_nil_of_some_true (c : List Block)
    (h : valid_chain sha enc c = some true) : c ≠ [] := by
  cases c with
  | nil => simp [valid_chain] at h
  | cons first rest => exact List.cons_ne_nil _ _

theorem powAux_eq_find (last_proof : Int)
    (hex : ∃ p : Nat, valid_proof sha last_proof p = true) :
    ∀ (p : Nat) (hle : p ≤ Nat.find hex),
      powAux sha last_proof hex p hle = Nat.find hex := by
  intro p hle
  obtain ⟨n, hn⟩ : ∃ n, Nat.find hex - p = n := ⟨_, rfl⟩
  induction n generalizing p with
  | zero =>
    have hpe : p = Nat.find hex := by omega
    rw [powAux]
    subst hpe
    simp [Nat.find_spec hex]
  | succ n ih =>
    rw [powAux]
    by_cases hv : valid_proof sha last_proof p = true
    · rw [dif_pos hv]
      exact Nat.le_antisymm hle (Nat.find_min' hex hv)
    · rw [dif_neg hv]
      have hlt : p < Nat.find hex := by
        rcases Nat.lt_or_ge p (Nat.find hex) with h | h
        · exact h
        · have hpe : p = Nat.find hex := Nat.le_antisymm hle h
          rw [hpe] at hv
          exact absurd (Nat.find_spec hex) hv
      exact ih (p + 1) hlt (by omega)

theorem proof_of_work_eq_find (last_proof : Int)
    (hex : ∃ p : Nat, valid_proof sha last_proof p = true) :
    proof_of_work sha last_proof hex = Nat.find hex :=
  powAux_eq_find sha last_proof hex 0 (Nat.zero_le _)

theorem valid_proof_proof_of_work (last_proof : Int)
    (hex : ∃ p : Nat, valid_proof sha last_proof p = true) :
    valid_proof sha last_proof (proof_of_work sha last_proof hex) = true := by
  rw [proof_of_work_eq_find]
  exact Nat.find_spec hex

/-- **C5**: for every non-negative `last_proof` for which some non-negative
integer is a valid proof, `proof_of_work` terminates (it is a total function
given that existence) and returns the least valid proof; in particular its
result satisfies `valid_proof`. -/
theorem proof_of_work_least (last_proof : Int) (hnn : 0 ≤ last_proof)
    (hex : ∃ p : Nat, valid_proof sha last_proof p = true) :
    valid_proof sha last_proof (proof_of_work sha last_proof hex) = true ∧
    ∀ q : Nat, valid_proof sha last_proof q = true →
      proof_of_work sha last_proof hex ≤ q := by
  rw [proof_of_work_eq_find]
  exact ⟨Nat.find_spec hex, fun q hq => Nat.find_min' hex hq⟩

/-- Witness for `proof_of_work_least` at `last_proof = 0` under `shaZ`. -/
theorem proof_of_work_least_witness :
    (0 : Int) ≤ 0 ∧ valid_proof shaZ 0 ((0 : Nat)) = true ∧
    (valid_proof shaZ 0 (proof_of_work shaZ 0 ⟨0, rfl⟩) = true ∧
      ∀ q : Nat, valid_proof shaZ 0 q = true → proof_of_work shaZ 0 ⟨0, rfl⟩ ≤ q) :=
  ⟨le_refl 0, rfl, proof_of_work_least shaZ 0 (le_refl 0) ⟨0, rfl⟩⟩

theorem take_four_eq_iff (l p : List Char) (hp : p.length = 4) :
    l.take 4 = p ↔ ∃ t, l = p ++ t := by
  constructor
  · intro h
    exact ⟨l.drop 4, by rw [← h, List.take_append_drop]⟩
  · rintro ⟨t, rfl⟩
    rw [← hp, List.take_left]

/-- **C4**: `valid_proof last_proof proof` is true iff the hex digest of the
concatenated decimal representations of the two arguments begins with the
four-character prefix `"0000"`. -/
theorem valid_proof_iff_begins_with_zeros (a b : Int) :
    valid_proof sha a b = true ↔
      ∃ t : String, sha (toString a ++ toString b) = "0000" ++ t := by
  unfold valid_proof pySlice
  rw [beq_iff_eq]
  constructor
  · intro h
    have hd : (sha (toString a ++ toString b)).data.take 4 = ("0000" : String).data :=
      congrArg String.data h
    rw [take_four_eq_iff _ _ (by decide)] at hd
    obtain ⟨t, ht⟩ := hd
    refine ⟨String.mk t, String.ext ?_⟩
    rw [String.data_append, ht]
  · rintro ⟨t, ht⟩
    apply String.ext
    show (sha (toString a ++ toString b)).data.take 4 = ("0000" : String).data
    rw [ht, String.data_append]
    rw [take_four_eq_iff _ _ (by decide)]
    exact ⟨t.data, rfl⟩

/-- **C9**: `valid_proof` depends on its two integer arguments only through
the concatenation of their decimal representations. -/
theorem valid_proof_concat_congr (a b c d : Int)
    (ha : 0 ≤ a) (hb : 0 ≤ b) (hc : 0 ≤ c) (hd : 0 ≤ d)
    (h : toString a ++ toString b = toString c ++ toString d) :
    valid_proof sha a b = valid_proof sha c d := by
  unfold valid_proof
  rw [h]

/-- Witness for `valid_proof_concat_congr` at `(1, 23)` and `(12, 3)`. -/
theorem valid_proof_concat_congr_witness :
    (0 : Int) ≤ 1 ∧ (0 : Int) ≤ 23 ∧ (0 : Int) ≤ 12 ∧ (0 : Int) ≤ 3 ∧
    toString (1 : Int) ++ toString (23 : Int) = toString (12 : Int) ++ toString (3 : Int) ∧
    valid_proof shaZ 1 23 = valid_proof shaZ 12 3 :=
  ⟨by decide, by decide, by decide, by decide, by decide,
    valid_proof_concat_congr shaZ 1 23 12 3 (by decide) (by decide) (by decide) (by decide)
      (by decide)⟩

theorem mine_eq (nodeId : String) (ts : Nat) (bc : Blockchain)
    (hex : ∀ lp : Int, ∃ p : Nat, valid_proof sha lp p = true)
    (lb : Block) (h : last_block bc = some lb) :
    mine sha enc nodeId ts bc hex =
      some ({ bc with
                chain := bc.chain ++ [minedBlock sha enc nodeId ts bc lb hex],
                current_transactions := [] },
            minedBlock sha enc nodeId ts bc lb hex) := by
  unfold mine
  rw [h]
  unfold new_block new_transaction minedBlock last_block
  unfold last_block at h
  by_cases he : hash sha enc lb = "" <;> simp [he, h]

/-- **C6**: from any state with a tip block, `mine` appends exactly one
block: its transactions are the pending pool followed by the single reward
transaction `("0", nodeId, 1)`, its proof is valid against the tip's proof,
its `previous_hash` is the tip's hash, and the pending pool is empty
afterwards. -/
theorem mine_spec (nodeId : String) (ts : Nat) (bc : Blockchain)
    (hex : ∀ lp : Int, ∃ p : Nat, valid_proof sha lp p = true)
    (lb : Block) (h : last_block bc = some lb) :
    ∃ bc' blk, mine sha enc nodeId ts bc hex = some (bc', blk) ∧
      bc'.chain = bc.chain ++ [blk] ∧
      blk.transactions =
        bc.current_transactions ++
          [({ sender := "0", recipient := nodeId, amount := 1 } : Transaction)] ∧
      valid_proof sha lb.proof blk.proof = true ∧
      blk.previous_hash = hash sha enc lb ∧
      bc'.current_transactions = [] := by
  refine ⟨_, _, mine_eq sha enc nodeId ts bc hex lb h, rfl, rfl, ?_, rfl, rfl⟩
  show valid_proof sha lb.proof ((proof_of_work sha lb.proof (hex lb.proof) : Int)) = true
  exact valid_proof_proof_of_work sha lb.proof (hex lb.proof)

/-- Witness for `mine_spec` on the freshly constructed ledger under `shaZ`. -/
theorem mine_spec_witness :
    last_block (init shaZ encZ 0) =
      some { index := 1, timestamp := 0, transactions := [], proof := 100,
             previous_hash := "1" } ∧
    (∀ lp : Int, ∃ p : Nat, valid_proof shaZ lp p = true) ∧
    ∃ bc' blk, mine shaZ encZ "node" 1 (init shaZ encZ 0) (fun _ => ⟨0, rfl⟩) =
        some (bc', blk) ∧
      bc'.chain = (init shaZ encZ 0).chain ++ [blk] ∧
      blk.transactions =
        (init shaZ encZ 0).current_transactions ++
          [({ sender := "0", recipient := "node", amount := 1 } : Transaction)] ∧
      valid_proof shaZ
        ({ index := 1, timestamp := 0, transactions := [], proof := 100,
           previous_hash := "1" } : Block).proof blk.proof = true ∧
      blk.previous_hash = hash shaZ encZ
        { index := 1, timestamp := 0, transactions := [], proof := 100,
          previous_hash := "1" } ∧
      bc'.current_transactions = [] :=
  ⟨rfl, fun _ => ⟨0, rfl⟩,
    mine_spec shaZ encZ "node" 1 (init shaZ encZ 0) (fun _ => ⟨0, rfl⟩) _ rfl⟩

theorem init_eq (ts : Nat) :
    init sha enc ts =
      { chain := [{ index := 1, timestamp := ts, transactions := [], proof := 100,
                    previous_hash := "1" }],
        current_transactions := [], nodes := [] } := rfl

theorem chainInv_init (ts : Nat) : ChainInv sha enc (init sha enc ts) := by
  rw [ChainInv, init_eq]
  exact ⟨List.cons_ne_nil _ _, List.chain'_singleton _⟩

theorem chainInv_step (nodeId : String)
    (hex : ∀ lp : Int, ∃ p : Nat, valid_proof sha lp p = true)
    (bc : Blockchain) (op : Op) (hinv : ChainInv sha enc bc) :
    ChainInv sha enc (step sha enc nodeId hex bc op) := by
  obtain ⟨hne, hchain⟩ := hinv
  cases op with
  | submit t => exact ⟨by simpa [step, new_transaction] using hne,
      by simpa [step, new_transaction] using hchain⟩
  | mine ts =>
    have hlb : bc.chain.getLast? = some (bc.chain.getLast hne) :=
      List.getLast?_eq_getLast_of_ne_nil hne
    have hstep : step sha enc nodeId hex bc (Op.mine ts) =
        { bc with
          chain := bc.chain ++
            [minedBlock sha enc nodeId ts bc (bc.chain.getLast hne) hex],
          current_transactions := [] } := by
      simp only [step]
      rw [mine_eq sha enc nodeId ts bc hex _ hlb]
    rw [hstep]
    constructor
    · simp
    · show List.Chain' (LinkOk sha enc) (bc.chain ++ [_])
      rw [List.chain'_append]
      refine ⟨hchain, List.chain'_singleton _, ?_⟩
      intro x hx y hy
      rw [hlb] at hx
      simp only [Option.mem_def, Option.some.injEq, List.head?_cons] at hx hy
      subst hx
      subst hy
      constructor
      · rfl
      · exact valid_proof_proof_of_work sha _ _

theorem chainInv_run (nodeId : String)
    (hex : ∀ lp : Int, ∃ p : Nat, valid_proof sha lp p = true)
    (ts0 : Nat) (ops : List Op) :
    ChainInv sha enc (run sha enc nodeId hex ts0 ops) := by
  unfold run
  have key : ∀ (l : List Op) (bc : Blockchain), ChainInv sha enc bc →
      ChainInv sha enc (l.foldl (step sha enc nodeId hex) bc) := by
    intro l
    induction l with
    | nil => intro bc h; exact h
    | cons op l ih =>
      intro bc h
      exact ih _ (chainInv_step sha enc nodeId hex bc op h)
  exact key ops _ (chainInv_init sha enc ts0)

/-- **C1**: every ledger state reachable from the freshly constructed ledger
by a finite sequence of `mine` and `submit_transaction` operations has a
chain that `valid_chain` accepts. -/
theorem run_valid_chain (nodeId : String)
    (hex : ∀ lp : Int, ∃ p : Nat, valid_proof sha lp p = true)
    (ts0 : Nat) (ops : List Op) :
    valid_chain sha enc (run sha enc nodeId hex ts0 ops).chain = some true := by
  obtain ⟨hne, hchain⟩ := chainInv_run sha enc nodeId hex ts0 ops
  obtain ⟨first, rest, hc⟩ := List.exists_cons_of_ne_nil hne
  rw [hc]
  rw [valid_chain_cons]
  rw [← hc]
  exact hchain

/-- Witness for `run_valid_chain`: mine, submit, mine again under `shaZ`. -/
theorem run_valid_chain_witness :
    (∀ lp : Int, ∃ p : Nat, valid_proof shaZ lp p = true) ∧
    valid_chain shaZ encZ
      (run shaZ encZ "node" (fun _ => ⟨0, rfl⟩) 0
        [Op.mine 1, Op.submit { sender := "alice", recipient := "bob", amount := 5 },
          Op.mine 2]).chain = some true :=
  ⟨fun _ => ⟨0, rfl⟩, run_valid_chain shaZ encZ "node" (fun _ => ⟨0, rfl⟩) 0 _⟩

/-- The claimed behaviour of `valid_chain` on the empty candidate is false:
the code reads `chain[0]` before any length check, so the empty candidate
raises `IndexError` (`none`) instead of returning true. -/
theorem valid_chain_nil_raises :
    valid_chain shaZ encZ [] = none ∧ valid_chain shaZ encZ [] ≠ some true :=
  ⟨rfl, by decide⟩

/-- **C3** (amended): the empty candidate raises; a nonempty candidate gets
a boolean verdict, true iff every adjacent pair `(prev, curr)` satisfies
`curr.previous_hash = hash prev` and `valid_proof prev.proof curr.proof`. -/
theorem valid_chain_spec (first : Block) (rest : List Block) :
    valid_chain sha enc [] = none ∧
    valid_chain sha enc (first :: rest) = some (validChainLoop sha enc first rest) ∧
    (valid_chain sha enc (first :: rest) = some true ↔
      List.Chain' (LinkOk sha enc) (first :: rest)) :=
  ⟨rfl, rfl, valid_chain_cons sha enc first rest⟩

theorem resolveLoop_cons_network (rest : List (Option FetchResponse)) (m : Int)
    (nc : Option (List Block)) :
    resolveLoop sha enc (none :: rest) m nc = .error PyErr.network := rfl

theorem resolveLoop_cons_adopt (r : FetchResponse) (rest : List (Option FetchResponse))
    (m : Int) (nc : Option (List Block)) (h200 : r.status_code = 200)
    (hlen : r.length > m) (hvc : valid_chain sha enc r.chain = some true) :
    resolveLoop sha enc (some r :: rest) m nc =
      resolveLoop sha enc rest r.length (some r.chain) := by
  simp only [resolveLoop, if_pos h200, if_pos hlen, hvc]

theorem resolveLoop_cons_index_error (r : FetchResponse)
    (rest : List (Option FetchResponse)) (m : Int) (nc : Option (List Block))
    (h200 : r.status_code = 200) (hlen : r.length > m)
    (hvc : valid_chain sha enc r.chain = none) :
    resolveLoop sha enc (some r :: rest) m nc = .error PyErr.indexError := by
  simp only [resolveLoop, if_pos h200, if_pos hlen, hvc]

theorem resolveLoop_cons_skip (r : FetchResponse) (rest : List (Option FetchResponse))
    (m : Int) (nc : Option (List Block))
    (h : r.status_code ≠ 200 ∨ ¬ r.length > m ∨ valid_chain sha enc r.chain = some false) :
    resolveLoop sha enc (some r :: rest) m nc = resolveLoop sha enc rest m nc := by
  rcases h with h | h | h
  · simp only [resolveLoop, if_neg h]
  · by_cases h200 : r.status_code = 200
    · simp only [resolveLoop, if_pos h200, if_neg h]
    · simp only [resolveLoop, if_neg h200]
  · by_cases h200 : r.status_code = 200
    · by_cases hlen : r.length > m
      · simp only [resolveLoop, if_pos h200, if_pos hlen, h]
      · simp only [resolveLoop, if_pos h200, if_neg hlen]
    · simp only [resolveLoop, if_neg h200]

theorem resolveLoop_some_absorbing :
    ∀ (fetches : List (Option FetchResponse)) (m : Int) (c : List Block)
      (m' : Int) (nc' : Option (List Block)),
      resolveLoop sha enc fetches m (some c) = .ok (m', nc') →
      ∃ c', nc' = some c' := by
  intro fetches
  induction fetches with
  | nil =>
    intro m c m' nc' h
    simp only [resolveLoop, Except.ok.injEq, Prod.mk.injEq] at h
    exact ⟨c, h.2.symm⟩
  | cons f rest ih =>
    intro m c m' nc' h
    cases f with
    | none => rw [resolveLoop_cons_network] at h; simp at h
    | some r =>
      by_cases h200 : r.status_code = 200
      · by_cases hlen : r.length > m
        · cases hvc : valid_chain sha enc r.chain with
          | none => rw [resolveLoop_cons_index_error sha enc r rest m _ h200 hlen hvc] at h; simp at h
          | some b =>
            cases b with
            | true =>
              rw [resolveLoop_cons_adopt sha enc r rest m _ h200 hlen hvc] at h
              exact ih _ _ _ _ h
            | false =>
              rw [resolveLoop_cons_skip sha enc r rest m _ (Or.inr (Or.inr hvc))] at h
              exact ih _ _ _ _ h
        · rw [resolveLoop_cons_skip sha enc r rest m _ (Or.inr (Or.inl hlen))] at h
          exact ih _ _ _ _ h
      · rw [resolveLoop_cons_skip sha enc r rest m _ (Or.inl h200)] at h
        exact ih _ _ _ _ h

theorem resolveLoop_char :
    ∀ (fetches : List (Option FetchResponse)) (m : Int) (nc : Option (List Block))
      (m' : Int) (nc' : Option (List Block)),
      resolveLoop sha enc fetches m nc = .ok (m', nc') →
      m ≤ m' ∧
        ((nc' = nc ∧ m' = m) ∨
          ∃ r, some r ∈ fetches ∧ r.status_code = 200 ∧ r.length > m ∧
            valid_chain sha enc r.chain = some true ∧ nc' = some r.chain) := by
  intro fetches
  induction fetches with
  | nil =>
    intro m nc m' nc' h
    simp only [resolveLoop, Except.ok.injEq, Prod.mk.injEq] at h
    exact ⟨le_of_eq h.1, Or.inl ⟨h.2.symm, h.1.symm⟩⟩
  | cons f rest ih =>
    intro m nc m' nc' h
    cases f with
    | none => rw [resolveLoop_cons_network] at h; simp at h
    | some r =>
      by_cases h200 : r.status_code = 200
      · by_cases hlen : r.length > m
        · cases hvc : valid_chain sha enc r.chain with
          | none => rw [resolveLoop_cons_index_error sha enc r rest m _ h200 hlen hvc] at h; simp at h
          | some b =>
            cases b with
            | true =>
              rw [resolveLoop_cons_adopt sha enc r rest m _ h200 hlen hvc] at h
              obtain ⟨hm, hor⟩ := ih _ _ _ _ h
              refine ⟨le_trans (le_of_lt hlen) hm, Or.inr ?_⟩
              rcases hor with ⟨hnc, _⟩ | ⟨r', hmem, h2', hl', hv', hnc'⟩
              · exact ⟨r, List.mem_cons_self _ _, h200, hlen, hvc, hnc⟩
              · exact ⟨r', List.mem_cons_of_mem _ hmem, h2', lt_trans hlen hl', hv', hnc'⟩
            | false =>
              rw [resolveLoop_cons_skip sha enc r rest m _ (Or.inr (Or.inr hvc))] at h
              obtain ⟨hm, hor⟩ := ih _ _ _ _ h
              refine ⟨hm, hor.imp id ?_⟩
              rintro ⟨r', hmem, h2', hl', hv', hnc'⟩
              exact ⟨r', List.mem_cons_of_mem _ hmem, h2', hl', hv', hnc'⟩
        · rw [resolveLoop_cons_skip sha enc r rest m _ (Or.inr (Or.inl hlen))] at h
          obtain ⟨hm, hor⟩ := ih _ _ _ _ h
          refine ⟨hm, hor.imp id ?_⟩
          rintro ⟨r', hmem, h2', hl', hv', hnc'⟩
          exact ⟨r', List.mem_cons_of_mem _ hmem, h2', hl', hv', hnc'⟩
      · rw [resolveLoop_cons_skip sha enc r rest m _ (Or.inl h200)] at h
        obtain ⟨hm, hor⟩ := ih _ _ _ _ h
        refine ⟨hm, hor.imp id ?_⟩
        rintro ⟨r', hmem, h2', hl', hv', hnc'⟩
        exact ⟨r', List.mem_cons_of_mem _ hmem, h2', hl', hv', hnc'⟩

theorem resolveLoop_complete (r : FetchResponse) (h200 : r.status_code = 200)
    (hvc : valid_chain sha enc r.chain = some true) :
    ∀ (fetches : List (Option FetchResponse)) (m : Int) (nc : Option (List Block))
      (m' : Int) (nc' : Option (List Block)),
      resolveLoop sha enc fetches m nc = .ok (m', nc') →
      some r ∈ fetches → r.length > m → ∃ c', nc' = some c' := by
  intro fetches
  induction fetches with
  | nil => intro m nc m' nc' _ hmem _; simp at hmem
  | cons f rest ih =>
    intro m nc m' nc' h hmem hlen
    cases f with
    | none => rw [resolveLoop_cons_network] at h; simp at h
    | some r0 =>
      rcases List.mem_cons.mp hmem with heq | hmem'
      · have heq' : r0 = r := (Option.some.inj heq).symm
        rw [heq'] at h
        rw [resolveLoop_cons_adopt sha enc r rest m _ h200 hlen hvc] at h
        exact resolveLoop_some_absorbing sha enc rest _ _ _ _ h
      · by_cases h0 : r0.status_code = 200
        · by_cases hl0 : r0.length > m
          · cases hvc0 : valid_chain sha enc r0.chain with
            | none =>
              rw [resolveLoop_cons_index_error sha enc r0 rest m _ h0 hl0 hvc0] at h
              simp at h
            | some b =>
              cases b with
              | true =>
                rw [resolveLoop_cons_adopt sha enc r0 rest m _ h0 hl0 hvc0] at h
                exact resolveLoop_some_absorbing sha enc rest _ _ _ _ h
              | false =>
                rw [resolveLoop_cons_skip sha enc r0 rest m _ (Or.inr (Or.inr hvc0))] at h
                exact ih _ _ _ _ h hmem' hlen
          · rw [resolveLoop_cons_skip sha enc r0 rest m _ (Or.inr (Or.inl hl0))] at h
            exact ih _ _ _ _ h hmem' hlen
        · rw [resolveLoop_cons_skip sha enc r0 rest m _ (Or.inl h0)] at h
          exact ih _ _ _ _ h hmem' hlen

/-- **C2**: when `resolve_conflicts` returns normally, it reports `true` iff
some successfully fetched peer response carries a reported length strictly
greater than the local chain length and a chain the validator accepts; when
it reports `true`, the new local chain is such a peer chain (so equal-length
peer chains are never adopted); when it reports `false`, the state is
unchanged. -/
theorem resolve_conflicts_spec (bc : Blockchain)
    (fetches : List (Option FetchResponse)) (bc' : Blockchain) (rep : Bool)
    (hres : resolve_conflicts sha enc bc fetches = .ok (bc', rep)) :
    (rep = true ↔ ∃ r, some r ∈ fetches ∧ r.status_code = 200 ∧
        r.length > (bc.chain.length : Int) ∧ valid_chain sha enc r.chain = some true) ∧
    (rep = true → ∃ r, some r ∈ fetches ∧ r.status_code = 200 ∧
        r.length > (bc.chain.length : Int) ∧ valid_chain sha enc r.chain = some true ∧
        bc' = { bc with chain := r.chain }) ∧
    (rep = false → bc' = bc) := by
  unfold resolve_conflicts at hres
  cases hloop : resolveLoop sha enc fetches (bc.chain.length : Int) none with
  | error e => rw [hloop] at hres; simp at hres
  | ok p =>
    obtain ⟨m', nc'⟩ := p
    rw [hloop] at hres
    cases nc' with
    | none =>
      simp only [Except.ok.injEq, Prod.mk.injEq] at hres
      obtain ⟨hbc, hrep⟩ := hres
      refine ⟨?_, ?_, fun _ => hbc.symm⟩
      · rw [← hrep]
        simp only [Bool.false_eq_true, false_iff]
        rintro ⟨r, hmem, h200, hlen, hvc⟩
        obtain ⟨c', hc'⟩ :=
          resolveLoop_complete sha enc r h200 hvc fetches _ none m' none hloop hmem hlen
        simp at hc'
      · intro htrue
        rw [← hrep] at htrue
        simp at htrue
    | some c =>
      obtain ⟨_, hor⟩ := resolveLoop_char sha enc fetches _ none m' (some c) hloop
      rcases hor with ⟨hnc, _⟩ | ⟨r, hmem, h200, hlen, hvc, hnc⟩
      · simp at hnc
      · obtain rfl : c = r.chain := Option.some.inj hnc
        have hcne : r.chain ≠ [] := valid_chain_ne_nil_of_some_true sha enc r.chain hvc
        have hce : r.chain.isEmpty = false := by
          cases hc : r.chain with
          | nil => exact absurd hc hcne
          | cons a l => rfl
        have hres' : (if r.chain.isEmpty = true then Except.ok (bc, false)
            else Except.ok ({ bc with chain := r.chain }, true)) =
              Except.ok (bc', rep) := hres
        rw [hce] at hres'
        simp only [Bool.false_eq_true, if_false, Except.ok.injEq, Prod.mk.injEq] at hres'
        obtain ⟨hbc, hrep⟩ := hres'
        refine ⟨?_, ?_, ?_⟩
        · rw [← hrep]
          simp only [true_iff]
          exact ⟨r, hmem, h200, hlen, hvc⟩
        · intro _
          exact ⟨r, hmem, h200, hlen, hvc, hbc.symm⟩
        · intro hfalse
          rw [← hrep] at hfalse
          simp at hfalse

/-- Witness for `resolve_conflicts_spec` with no registered peers. -/
theorem resolve_conflicts_spec_witness :
    resolve_conflicts shaZ encZ twoBlockState [] = .ok (twoBlockState, false) ∧
    ((false = true ↔ ∃ r, some r ∈ ([] : List (Option FetchResponse)) ∧
        r.status_code = 200 ∧ r.length > (twoBlockState.chain.length : Int) ∧
        valid_chain shaZ encZ r.chain = some true) ∧
      (false = true → ∃ r, some r ∈ ([] : List (Option FetchResponse)) ∧
        r.status_code = 200 ∧ r.length > (twoBlockState.chain.length : Int) ∧
        valid_chain shaZ encZ r.chain = some true ∧
        twoBlockState = { twoBlockState with chain := r.chain }) ∧
      (false = false → twoBlockState = twoBlockState)) :=
  ⟨rfl, resolve_conflicts_spec shaZ encZ twoBlockState [] twoBlockState false rfl⟩

/-- **C10**: whatever boolean `resolve_conflicts` reports, it leaves the
pending transaction pool and the registered node set untouched. -/
theorem resolve_conflicts_frame (bc : Blockchain)
    (fetches : List (Option FetchResponse)) (bc' : Blockchain) (rep : Bool)
    (hres : resolve_conflicts sha enc bc fetches = .ok (bc', rep)) :
    bc'.current_transactions = bc.current_transactions ∧ bc'.nodes = bc.nodes := by
  unfold resolve_conflicts at hres
  cases hloop : resolveLoop sha enc fetches (bc.chain.length : Int) none with
  | error e => rw [hloop] at hres; simp at hres
  | ok p =>
    obtain ⟨m', nc'⟩ := p
    rw [hloop] at hres
    cases nc' with
    | none =>
      simp only [Except.ok.injEq, Prod.mk.injEq] at hres
      rw [← hres.1]
      exact ⟨rfl, rfl⟩
    | some c =>
      by_cases hce : c.isEmpty <;>
        simp only [hce, if_true, if_false, Bool.false_eq_true, Except.ok.injEq,
          Prod.mk.injEq] at hres <;>
        rw [← hres.1] <;> exact ⟨rfl, rfl⟩

/-- Witness for `resolve_conflicts_frame` with one skipped peer response. -/
theorem resolve_conflicts_frame_witness :
    resolve_conflicts shaZ encZ twoBlockState
        [some { status_code := 404, chain := [], length := 9 }] =
      .ok (twoBlockState, false) ∧
    twoBlockState.current_transactions = twoBlockState.current_transactions ∧
    twoBlockState.nodes = twoBlockState.nodes :=
  ⟨rfl, resolve_conflicts_frame shaZ encZ twoBlockState
    [some { status_code := 404, chain := [], length := 9 }] twoBlockState false rfl⟩

/-- The claim that every failed peer fetch is non-fatal is false for network
errors: one erroring fetch makes `resolve_conflicts` propagate the raised
exception instead of returning a result. -/
theorem resolve_conflicts_network_error_fatal :
    resolve_conflicts shaZ encZ twoBlockState [none] = .error PyErr.network := rfl

theorem resolveLoop_remove_non200 (r : FetchResponse) (h : r.status_code ≠ 200) :
    ∀ (pre rest : List (Option FetchResponse)) (m : Int) (nc : Option (List Block)),
      resolveLoop sha enc (pre ++ some r :: rest) m nc =
        resolveLoop sha enc (pre ++ rest) m nc := by
  intro pre
  induction pre with
  | nil =>
    intro rest m nc
    simpa using resolveLoop_cons_skip sha enc r rest m nc (Or.inl h)
  | cons f pre ih =>
    intro rest m nc
    cases f with
    | none =>
      rw [List.cons_append, List.cons_append, resolveLoop_cons_network,
        resolveLoop_cons_network]
    | some r0 =>
      rw [List.cons_append, List.cons_append]
      by_cases h0 : r0.status_code = 200
      · by_cases hl0 : r0.length > m
        · cases hvc0 : valid_chain sha enc r0.chain with
          | none =>
            rw [resolveLoop_cons_index_error sha enc r0 _ m _ h0 hl0 hvc0,
              resolveLoop_cons_index_error sha enc r0 _ m _ h0 hl0 hvc0]
          | some b =>
            cases b with
            | true =>
              rw [resolveLoop_cons_adopt sha enc r0 _ m _ h0 hl0 hvc0,
                resolveLoop_cons_adopt sha enc r0 _ m _ h0 hl0 hvc0]
              exact ih rest _ _
            | false =>
              rw [resolveLoop_cons_skip sha enc r0 _ m _ (Or.inr (Or.inr hvc0)),
                resolveLoop_cons_skip sha enc r0 _ m _ (Or.inr (Or.inr hvc0))]
              exact ih rest _ _
        · rw [resolveLoop_cons_skip sha enc r0 _ m _ (Or.inr (Or.inl hl0)),
            resolveLoop_cons_skip sha enc r0 _ m _ (Or.inr (Or.inl hl0))]
          exact ih rest _ _
      · rw [resolveLoop_cons_skip sha enc r0 _ m _ (Or.inl h0),
          resolveLoop_cons_skip sha enc r0 _ m _ (Or.inl h0)]
        exact ih rest _ _

/-- **C7** (amended): a fetched response with a non-success status code is
skipped and the remaining peers are still evaluated — removing such a
response from the fetch sequence does not change the outcome — but a network
error while fetching a peer aborts the loop with the raised exception. -/
theorem resolve_conflicts_error_handling (bc : Blockchain)
    (pre rest : List (Option FetchResponse)) (r : FetchResponse)
    (m : Int) (nc : Option (List Block))
    (h : r.status_code ≠ 200) :
    resolve_conflicts sha enc bc (pre ++ some r :: rest) =
      resolve_conflicts sha enc bc (pre ++ rest) ∧
    resolveLoop sha enc (none :: rest) m nc = .error PyErr.network := by
  refine ⟨?_, rfl⟩
  unfold resolve_conflicts
  rw [resolveLoop_remove_non200 sha enc r h pre rest]

/-- Witness for `resolve_conflicts_error_handling` with a 404 response. -/
theorem resolve_conflicts_error_handling_witness :
    (({ status_code := 404, chain := [], length := 9 } : FetchResponse).status_code ≠ 200) ∧
    (resolve_conflicts shaZ encZ twoBlockState
        ([] ++ some { status_code := 404, chain := [], length := 9 } ::
          [some { status_code := 500, chain := [], length := 9 }]) =
      resolve_conflicts shaZ encZ twoBlockState
        ([] ++ [some { status_code := 500, chain := [], length := 9 }]) ∧
    resolveLoop shaZ encZ
        (none :: [some ({ status_code := 500, chain := [], length := 9 } : FetchResponse)])
        0 none = .error PyErr.network) :=
  ⟨by decide,
    resolve_conflicts_error_handling shaZ encZ twoBlockState []
      [some { status_code := 500, chain := [], length := 9 }]
      { status_code := 404, chain := [], length := 9 } 0 none (by decide)⟩

/-- **C8**: adoption goes by the peer-reported length, not the actual block
count: a validator-accepted one-block peer chain reported as length 99
replaces a two-block local chain and `resolve_conflicts` reports `true`. -/
theorem resolve_conflicts_trusts_reported_length :
    valid_chain shaZ encZ [gBlock] = some true ∧
    [gBlock].length < twoBlockState.chain.length ∧
    (99 : Int) > (twoBlockState.chain.length : Int) ∧
    resolve_conflicts shaZ encZ twoBlockState
        [some { status_code := 200, chain := [gBlock], length := 99 }] =
      .ok ({ twoBlockState with chain := [gBlock] }, true) := by
  refine ⟨rfl, by decide, by decide, rfl⟩

end Theorems

end BlockchainFS
